import Mathlib

/-!
Verification development for the bencode codec of `src/src/bencode.rs`.

The repository's `decode_bencoded_value : &str -> anyhow::Result<serde_json::Value>`
(src/src/bencode.rs lines 4-39) parses one bencode value from the front of its
input with `serde_bencode::from_str` and then converts the parsed
`serde_bencode::value::Value` to a `serde_json::Value` with the local `convert`
function.  The `convert` function is embedded here from the source; the parser
lives in the external `serde_bencode` crate (it is not part of src/), so it is
modelled from the spec (sections 4.1, 7 and 9), with its behaviour pinned on every
concrete input exercised by the repository's test suite (src/src/bencode.rs lines
41-218).  The spec's encoder (section 4.2) has no implementation in src/ at all
and is likewise modelled from the spec.

Bytes are modelled as `Nat` (the inputs of interest are byte strings; `from_str`
immediately reinterprets the `&str` argument as its UTF-8 bytes).  Machine-width
concerns do not arise in any claim: integers are modelled as `Int`, matching the
spec's "arbitrary-precision (or at least 64-bit) signed integer".
-/

namespace Bencode

/-- Error taxonomy of spec section 7.  The Rust code returns `anyhow::Error`;
the spec assigns each deterministic parse/validation failure one of these kinds. -/
inductive DecodeError where
  | invalidTag
  | invalidLength
  | unexpectedEof
  | invalidInteger
  | unterminatedList
  | unterminatedDict
  | invalidKey
  | notUtf8
  | keyNotUtf8
  | nestingTooDeep
deriving DecidableEq

/-- Model of `serde_bencode::value::Value`: byte string, integer, list, dictionary.
The Rust `Dict` is a `HashMap<Vec<u8>, Value>`; it is modelled as an association
list that the parser keeps duplicate-free (see `insertAll`), since a `HashMap`
resolves a repeated key by overwriting the earlier binding. -/
inductive BValue where
  | str (b : List Nat)
  | int (n : Int)
  | list (l : List BValue)
  | dict (d : List (List Nat × BValue))

/-- Model of `serde_json::Value` as produced by `convert`: a string holds the
UTF-8 bytes of a Rust `String`; an object models the default `serde_json::Map`
(a `BTreeMap<String, Value>`), kept sorted by byte-lexicographic key order. -/
inductive JValue where
  | str (s : List Nat)
  | num (n : Int)
  | arr (l : List JValue)
  | obj (m : List (List Nat × JValue))

/-- ASCII decimal digit test, on bytes. -/
def isDigitByte (c : Nat) : Bool := decide (48 ≤ c) && decide (c ≤ 57)

/-- Split a leading run of decimal digits from the input. -/
def readDigits : List Nat → List Nat × List Nat
  | [] => ([], [])
  | c :: rest =>
    if isDigitByte c then
      let p := readDigits rest
      (c :: p.1, p.2)
    else ([], c :: rest)

/-- Value of a digit run, most significant first (how `usize`/`i64` parsing
accumulates digits; leading zeros are accepted, as Rust's integer parsing does). -/
def digitsVal (ds : List Nat) : Nat := ds.foldl (fun a c => 10 * a + (c - 48)) 0

/-- Take bytes up to the first `e` (0x65) terminator; `none` when no `e` remains. -/
def readUntilE : List Nat → Option (List Nat × List Nat)
  | [] => none
  | c :: rest =>
    if c = 101 then some ([], rest)
    else (readUntilE rest).map (fun p => (c :: p.1, p.2))

/-- Modelled from the spec: the integer body rule of the `serde_bencode` parser
(not in src/).  Spec section 4.1: an optional leading `-` followed by one or more
decimal digits, anything else `InvalidInteger`.  Leading zeros and `-0` are
accepted leniently: the spec (section 9) records that the source test suite
disables the tests rejecting `i01e` and `i-0e`, i.e. the implementation accepts
both, as Rust's `i64` parsing does. -/
def parseIntBody (ds : List Nat) : Except DecodeError Int :=
  match ds with
  | [] => .error .invalidInteger
  | c :: t =>
    if c = 45 then
      if t.isEmpty then .error .invalidInteger
      else if t.all isDigitByte then .ok (-(digitsVal t : Int))
      else .error .invalidInteger
    else if (c :: t).all isDigitByte then .ok (digitsVal (c :: t) : Int)
    else .error .invalidInteger

/-- Modelled from the spec: the byte-string rule of the `serde_bencode` parser
(not in src/).  Spec section 4.1: `<ASCII decimal length>:<length bytes>`;
a malformed or colon-less length prefix is `InvalidLength`; a declared length
exceeding the remaining input is `UnexpectedEof`, never a silent truncation. -/
def parseStr (bs : List Nat) : Except DecodeError (List Nat × List Nat) :=
  let p := readDigits bs
  if p.1.isEmpty then .error .invalidLength
  else
    match p.2 with
    | 58 :: tail =>
      if digitsVal p.1 ≤ tail.length then
        .ok (tail.take (digitsVal p.1), tail.drop (digitsVal p.1))
      else .error .unexpectedEof
    | _ => .error .invalidLength

/-- Replace the binding of `k` in an association list, or append it: the effect
of `HashMap::insert` on the map's contents. -/
def setEntry : List (List Nat × BValue) → List Nat → BValue → List (List Nat × BValue)
  | [], k, v => [(k, v)]
  | (k₁, v₁) :: t, k, v => if k₁ = k then (k, v) :: t else (k₁, v₁) :: setEntry t k v

/-- Insert parsed dictionary entries in order into an initially empty map:
a repeated key overwrites the earlier binding, exactly as collecting the entries
into the `HashMap<Vec<u8>, Value>` of `serde_bencode::value::Value::Dict` does. -/
def insertAll (es : List (List Nat × BValue)) : List (List Nat × BValue) :=
  es.foldl (fun acc p => setEntry acc p.1 p.2) []

mutual
/-- Modelled from the spec: the recursive-descent bencode parser of the
`serde_bencode` crate (not in src/), over a cursor into the byte sequence
(spec sections 4.1 and 9).  It parses one value from the front and returns the
remaining bytes; trailing bytes are tolerated (spec section 4.1: "the reference
implementation tolerates trailing bytes because it parses only a prefix").
The fuel argument realizes the spec section 5 recursion guard (`NestingTooDeep`);
callers pass `input.length + 1`, which no parse of the input can exhaust, since
every recursive call consumes at least one input byte. -/
def parseValue : Nat → List Nat → Except DecodeError (BValue × List Nat)
  | 0, _ => .error .nestingTooDeep
  | _ + 1, [] => .error .unexpectedEof
  | fuel + 1, c :: rest =>
    if c = 105 then
      match readUntilE rest with
      | none => .error .invalidInteger
      | some (ds, r) =>
        match parseIntBody ds with
        | .error e => .error e
        | .ok n => .ok (.int n, r)
    else if c = 108 then
      match parseItems fuel rest with
      | .error e => .error e
      | .ok (vs, r) => .ok (.list vs, r)
    else if c = 100 then
      match parseEntries fuel rest with
      | .error e => .error e
      | .ok (es, r) => .ok (.dict (insertAll es), r)
    else if isDigitByte c then
      match parseStr (c :: rest) with
      | .error e => .error e
      | .ok (b, r) => .ok (.str b, r)
    else .error .invalidTag
/-- List elements up to the closing `e`; input ending mid-list is
`UnterminatedList` (spec section 4.1). -/
def parseItems : Nat → List Nat → Except DecodeError (List BValue × List Nat)
  | 0, _ => .error .nestingTooDeep
  | _ + 1, [] => .error .unterminatedList
  | fuel + 1, c :: rest =>
    if c = 101 then .ok ([], rest)
    else
      match parseValue fuel (c :: rest) with
      | .error e => .error e
      | .ok (v, r₁) =>
        match parseItems fuel r₁ with
        | .error e => .error e
        | .ok (vs, r₂) => .ok (v :: vs, r₂)
/-- Dictionary entries up to the closing `e`; a key that is not a byte string is
`InvalidKey`, input ending mid-dictionary is `UnterminatedDict` (spec section 4.1). -/
def parseEntries : Nat → List Nat → Except DecodeError (List (List Nat × BValue) × List Nat)
  | 0, _ => .error .nestingTooDeep
  | _ + 1, [] => .error .unterminatedDict
  | fuel + 1, c :: rest =>
    if c = 101 then .ok ([], rest)
    else if isDigitByte c then
      match parseStr (c :: rest) with
      | .error e => .error e
      | .ok (k, r₁) =>
        match parseValue fuel r₁ with
        | .error e => .error e
        | .ok (v, r₂) =>
          match parseEntries fuel r₂ with
          | .error e => .error e
          | .ok (es, r₃) => .ok ((k, v) :: es, r₃)
    else .error .invalidKey
end

/-- Spec section 4.1 `decode`: parse one bencode value from the front of the
input (`serde_bencode::from_str`), ignoring trailing bytes. -/
def decodeValue (bs : List Nat) : Except DecodeError BValue :=
  (parseValue (bs.length + 1) bs).map Prod.fst

/-- UTF-8 continuation byte (0x80-0xBF). -/
def isCont (c : Nat) : Bool := decide (128 ≤ c) && decide (c ≤ 191)

/-- Closed byte-range test. -/
def inRange (lo hi c : Nat) : Bool := decide (lo ≤ c) && decide (c ≤ hi)

/-- The UTF-8 well-formedness check performed by Rust's `String::from_utf8`:
shortest-form sequences only, surrogates (U+D800-U+DFFF) and code points above
U+10FFFF rejected. -/
def validUtf8 : List Nat → Bool
  | [] => true
  | c :: rest =>
    if c ≤ 127 then validUtf8 rest
    else if inRange 194 223 c then
      match rest with
      | c₂ :: r => isCont c₂ && validUtf8 r
      | [] => false
    else if c = 224 then
      match rest with
      | c₂ :: c₃ :: r => inRange 160 191 c₂ && isCont c₃ && validUtf8 r
      | _ => false
    else if inRange 225 236 c || c = 238 || c = 239 then
      match rest with
      | c₂ :: c₃ :: r => isCont c₂ && isCont c₃ && validUtf8 r
      | _ => false
    else if c = 237 then
      match rest with
      | c₂ :: c₃ :: r => inRange 128 159 c₂ && isCont c₃ && validUtf8 r
      | _ => false
    else if c = 240 then
      match rest with
      | c₂ :: c₃ :: c₄ :: r => inRange 144 191 c₂ && isCont c₃ && isCont c₄ && validUtf8 r
      | _ => false
    else if inRange 241 243 c then
      match rest with
      | c₂ :: c₃ :: c₄ :: r => isCont c₂ && isCont c₃ && isCont c₄ && validUtf8 r
      | _ => false
    else if c = 244 then
      match rest with
      | c₂ :: c₃ :: c₄ :: r => inRange 128 143 c₂ && isCont c₃ && isCont c₄ && validUtf8 r
      | _ => false
    else false

/-- Strict byte-lexicographic order on keys: the `Ord` instance of `Vec<u8>` /
`String` that drives the `BTreeMap` behind the default `serde_json::Map`. -/
def keyLt : List Nat → List Nat → Bool
  | [], [] => false
  | [], _ :: _ => true
  | _ :: _, [] => false
  | a :: as₁, b :: bs₁ => decide (a < b) || (decide (a = b) && keyLt as₁ bs₁)

/-- Ordered insert-or-replace: the contents effect of
`serde_json::Map::insert` (a `BTreeMap` keyed by byte-lexicographic order). -/
def jInsert : List (List Nat × JValue) → List Nat → JValue → List (List Nat × JValue)
  | [], k, v => [(k, v)]
  | (k₁, v₁) :: t, k, v =>
    if k = k₁ then (k, v) :: t
    else if keyLt k k₁ then (k, v) :: (k₁, v₁) :: t
    else (k₁, v₁) :: jInsert t k v

/-- Lookup in a converted object (`serde_json::Map` access by key). -/
def jLookup : List (List Nat × JValue) → List Nat → Option JValue
  | [], _ => none
  | (k₁, v₁) :: t, k => if k = k₁ then some v₁ else jLookup t k

/-- First binding of a key in a parsed-dictionary entry list. -/
def bAssoc : List (List Nat × BValue) → List Nat → Option BValue
  | [], _ => none
  | (k₁, v₁) :: t, k => if k = k₁ then some v₁ else bAssoc t k

/-- Bytes branch of `convert` (src/src/bencode.rs lines 7-10):
`String::from_utf8(b)` succeeds exactly on valid UTF-8, anything else is a
`FromUtf8Error` surfaced through `?` — the spec's `NotUtf8`. -/
def convertBytes (b : List Nat) : Except DecodeError JValue :=
  if validUtf8 b then .ok (.str b) else .error .notUtf8

mutual
/-- The local `convert` function, embedded from src/src/bencode.rs lines 5-35.
A dictionary key is converted by the same byte-string path as a value
(line 24 converts `Bytes(key)`, here `convertBytes`, which is definitionally
`convert (.str k)`); the `else` arm of line 26's `as_str()` test is the
(unreachable) `bail!` of line 29, the spec's `KeyNotUtf8`. -/
def convert : BValue → Except DecodeError JValue
  | .str b => convertBytes b
  | .int n => .ok (.num n)
  | .list l =>
    match convertList l with
    | .error e => .error e
    | .ok a => .ok (.arr a)
  | .dict d =>
    match convertEntries d [] with
    | .error e => .error e
    | .ok m => .ok (.obj m)
/-- The `into_iter().map(convert).collect::<Result<Vec<_>>>()` of lines 15-18:
convert each element in order, stopping at the first error. -/
def convertList : List BValue → Except DecodeError (List JValue)
  | [] => .ok []
  | v :: t =>
    match convert v with
    | .error e => .error e
    | .ok w =>
      match convertList t with
      | .error e => .error e
      | .ok ws => .ok (w :: ws)
/-- The `for (key, value) in d` loop of lines 23-31: convert the key, then the
value, then insert into the accumulating `serde_json::Map`. -/
def convertEntries :
    List (List Nat × BValue) → List (List Nat × JValue) →
    Except DecodeError (List (List Nat × JValue))
  | [], acc => .ok acc
  | (k, v) :: t, acc =>
    match convertBytes k with
    | .error e => .error e
    | .ok dk =>
      match convert v with
      | .error e => .error e
      | .ok dv =>
        match dk with
        | .str s => convertEntries t (jInsert acc s dv)
        | _ => .error .keyNotUtf8
end

/-- Embedding of `decode_bencoded_value` (src/src/bencode.rs lines 4-39):
parse with `serde_bencode::from_str`, then `convert` the result. -/
def decode_bencoded_value (bs : List Nat) : Except DecodeError JValue :=
  match decodeValue bs with
  | .error e => .error e
  | .ok v => convert v

/-- Canonical ASCII decimal of a natural number: no leading zeros, `0` itself
as the single digit `0`. -/
def natDecimal (n : Nat) : List Nat :=
  if n = 0 then [48] else ((Nat.digits 10 n).map (fun d => d + 48)).reverse

/-- Canonical ASCII decimal of an integer: minus sign exactly for negatives. -/
def intDecimal (n : Int) : List Nat :=
  if n < 0 then 45 :: natDecimal (-n).toNat else natDecimal n.toNat

/-- Non-strict byte-lexicographic key order, used to sort encoder output. -/
def keyLe : List Nat → List Nat → Bool
  | [], _ => true
  | _ :: _, [] => false
  | a :: as₁, b :: bs₁ => decide (a < b) || (decide (a = b) && keyLe as₁ bs₁)

/-- Insert an entry into a key-sorted entry list, keeping it sorted. -/
def entInsert (p : List Nat × BValue) : List (List Nat × BValue) → List (List Nat × BValue)
  | [] => [p]
  | q :: t => if keyLe p.1 q.1 then p :: q :: t else q :: entInsert p t

/-- Insertion sort of dictionary entries by ascending raw byte key order
(spec section 4.2: canonical output emits keys in this order). -/
def entSort : List (List Nat × BValue) → List (List Nat × BValue)
  | [] => []
  | p :: t => entInsert p (entSort t)

mutual
/-- Canonical form of a value: every dictionary's entries sorted by ascending
raw byte key order, recursively.  Two values with the canonical form are equal
as Rust values (a `HashMap` compares by contents, not entry order). -/
def canon : BValue → BValue
  | .str b => .str b
  | .int n => .int n
  | .list l => .list (canonList l)
  | .dict d => .dict (entSort (canonEntries d))
def canonList : List BValue → List BValue
  | [] => []
  | v :: t => canon v :: canonList t
def canonEntries : List (List Nat × BValue) → List (List Nat × BValue)
  | [] => []
  | (k, v) :: t => (k, canon v) :: canonEntries t
end

mutual
/-- Plain bencode encoding of a value, dictionaries emitted in entry order:
string as `<len>:<bytes>`, integer as `i<decimal>e`, list as `l...e`,
dictionary as `d...e`. -/
def encodeRaw : BValue → List Nat
  | .str b => natDecimal b.length ++ 58 :: b
  | .int n => 105 :: (intDecimal n ++ [101])
  | .list l => 108 :: (encodeItems l ++ [101])
  | .dict d => 100 :: (encodeEntriesRaw d ++ [101])
def encodeItems : List BValue → List Nat
  | [] => []
  | v :: t => encodeRaw v ++ encodeItems t
def encodeEntriesRaw : List (List Nat × BValue) → List Nat
  | [] => []
  | (k, v) :: t => (natDecimal k.length ++ 58 :: k) ++ encodeRaw v ++ encodeEntriesRaw t
end

/-- Modelled from the spec: the section 4.2 encoder, which has no implementation
under src/.  Total over in-memory values; produces canonical bencode with every
dictionary's keys emitted in ascending raw byte order, realized by sorting all
entries (`canon`) and then emitting them in order. -/
def encode (v : BValue) : List Nat := encodeRaw (canon v)

/-- Equality of values as the Rust `serde_bencode::value::Value` compares:
dictionary entry order is irrelevant (`HashMap` equality), everything else
structural — i.e. equal canonical forms. -/
def bvalEquiv (a b : BValue) : Prop := canon a = canon b

/-- Pairwise-distinct keys of one entry list. -/
def keysNodup : List (List Nat × BValue) → Bool
  | [] => true
  | (k, _) :: t => !(decide (k ∈ t.map Prod.fst)) && keysNodup t

mutual
/-- Dictionary keys unique at every nesting level (the round-trip side
condition of spec sections 4.2 and 8). -/
def uniqueKeys : BValue → Bool
  | .str _ => true
  | .int _ => true
  | .list l => uniqueKeysList l
  | .dict d => keysNodup d && uniqueKeysEntries d
def uniqueKeysList : List BValue → Bool
  | [] => true
  | v :: t => uniqueKeys v && uniqueKeysList t
def uniqueKeysEntries : List (List Nat × BValue) → Bool
  | [] => true
  | (_, v) :: t => uniqueKeys v && uniqueKeysEntries t
end

mutual
/-- Some byte-string value or dictionary key anywhere in the value is not
valid UTF-8 (the precondition of claim C4). -/
def hasInvalidUtf8 : BValue → Bool
  | .str b => !validUtf8 b
  | .int _ => false
  | .list l => hasInvalidUtf8List l
  | .dict d => hasInvalidUtf8Entries d
def hasInvalidUtf8List : List BValue → Bool
  | [] => false
  | v :: t => hasInvalidUtf8 v || hasInvalidUtf8List t
def hasInvalidUtf8Entries : List (List Nat × BValue) → Bool
  | [] => false
  | (k, v) :: t => !validUtf8 k || hasInvalidUtf8 v || hasInvalidUtf8Entries t
end

/-!
Correspondence with the repository's test suite (src/src/bencode.rs lines
41-218): the model reproduces every behaviour the tests pin, on the exact
test inputs.  Inputs are spelled as their UTF-8 bytes; the original string is
given in each comment.  A `should_panic` test pins only that decoding fails
(the `unwrap` panics); the error kind stated here is the spec section 7 kind.
-/

/-- Test `decode_string_valid`: decoding `"5:hello"` yields the string `"hello"`. -/
theorem test_decode_string_valid :
    decode_bencoded_value [53, 58, 104, 101, 108, 108, 111] =
      .ok (.str [104, 101, 108, 108, 111]) := rfl

/-- Test `decode_string_empty`: decoding `"0:"` yields the empty string. -/
theorem test_decode_string_empty :
    decode_bencoded_value [48, 58] = .ok (.str []) := rfl

/-- Test `decode_string_non_numeric_length`: decoding `":hello"` fails
(`:` is not one of the four grammar leaders). -/
theorem test_decode_string_non_numeric_length :
    decode_bencoded_value [58, 104, 101, 108, 108, 111] = .error .invalidTag := rfl

/-- Test `decode_string_missing_colon`: decoding `"5hello"` fails. -/
theorem test_decode_string_missing_colon :
    decode_bencoded_value [53, 104, 101, 108, 108, 111] = .error .invalidLength := rfl

/-- Test `decode_string_invalid_length`: decoding `"invalid:hello"` fails
(the leading `i` selects the integer rule, whose body is not numeric). -/
theorem test_decode_string_invalid_length :
    decode_bencoded_value [105, 110, 118, 97, 108, 105, 100, 58, 104, 101, 108, 108, 111] =
      .error .invalidInteger := rfl

/-- Test `decode_string_invalid_length_is_bigger`: decoding `"6:hello"` fails. -/
theorem test_decode_string_invalid_length_is_bigger :
    decode_bencoded_value [54, 58, 104, 101, 108, 108, 111] = .error .unexpectedEof := rfl

/-- Test `decode_string_length_is_smaller`: decoding `"5:helloo"` yields
`"hello"`, the trailing byte ignored. -/
theorem test_decode_string_length_is_smaller :
    decode_bencoded_value [53, 58, 104, 101, 108, 108, 111, 111] =
      .ok (.str [104, 101, 108, 108, 111]) := rfl

/-- Test `decode_number_valid`: decoding `"i123456e"` yields `123456`. -/
theorem test_decode_number_valid :
    decode_bencoded_value [105, 49, 50, 51, 52, 53, 54, 101] = .ok (.num 123456) := rfl

/-- Test `decode_number_valid_negative`: decoding `"i-789e"` yields `-789`. -/
theorem test_decode_number_valid_negative :
    decode_bencoded_value [105, 45, 55, 56, 57, 101] = .ok (.num (-789)) := rfl

/-- Test `decode_number_invalid_missing_end`: decoding `"i123456"` fails. -/
theorem test_decode_number_invalid_missing_end :
    decode_bencoded_value [105, 49, 50, 51, 52, 53, 54] = .error .invalidInteger := rfl

/-- Test `decode_number_invalid`: decoding `"ixyzee"` fails. -/
theorem test_decode_number_invalid :
    decode_bencoded_value [105, 120, 121, 122, 101, 101] = .error .invalidInteger := rfl

/-- Test `decode_number_invalid_empty`: decoding `"ie"` fails. -/
theorem test_decode_number_invalid_empty :
    decode_bencoded_value [105, 101] = .error .invalidInteger := rfl

/-- Test `decode_list_valid_empty`: decoding `"le"` yields the empty array. -/
theorem test_decode_list_valid_empty :
    decode_bencoded_value [108, 101] = .ok (.arr []) := rfl

/-- Test `decode_list_valid_single_element`: decoding `"li42ee"` yields `[42]`. -/
theorem test_decode_list_valid_single_element :
    decode_bencoded_value [108, 105, 52, 50, 101, 101] = .ok (.arr [.num 42]) := rfl

/-- Test `decode_list_valid_multiple_elements`: decoding `"li42e5:helloi123ee"`
yields `[42, "hello", 123]`, order preserved. -/
theorem test_decode_list_valid_multiple_elements :
    decode_bencoded_value
        [108, 105, 52, 50, 101, 53, 58, 104, 101, 108, 108, 111, 105, 49, 50, 51, 101, 101] =
      .ok (.arr [.num 42, .str [104, 101, 108, 108, 111], .num 123]) := rfl

/-- Test `decode_list_valid_nested`: decoding `"lli42eee"` yields `[[42]]`. -/
theorem test_decode_list_valid_nested :
    decode_bencoded_value [108, 108, 105, 52, 50, 101, 101, 101] =
      .ok (.arr [.arr [.num 42]]) := rfl

/-- Test `decode_list_invalid_empty`: decoding `"l"` fails. -/
theorem test_decode_list_invalid_empty :
    decode_bencoded_value [108] = .error .unterminatedList := rfl

/-- Test `decode_list_invalid_missing_end`: decoding `"li42e"` fails. -/
theorem test_decode_list_invalid_missing_end :
    decode_bencoded_value [108, 105, 52, 50, 101] = .error .unterminatedList := rfl

/-- Test `decode_dictionary_valid_empty`: decoding `"de"` yields the empty map. -/
theorem test_decode_dictionary_valid_empty :
    decode_bencoded_value [100, 101] = .ok (.obj []) := rfl

/-- Test `decode_dictionary_valid_single_element`: decoding `"d3:key5:valuee"`
yields `{"key": "value"}`. -/
theorem test_decode_dictionary_valid_single_element :
    decode_bencoded_value [100, 51, 58, 107, 101, 121, 53, 58, 118, 97, 108, 117, 101, 101] =
      .ok (.obj [([107, 101, 121], .str [118, 97, 108, 117, 101])]) := rfl

/-- Test `decode_dictionary_valid_multiple_elements`: decoding
`"d3:key5:value5:helloi123ee"` yields `{"key": "value", "hello": 123}`
(the map is keyed; `"hello"` sorts before `"key"`). -/
theorem test_decode_dictionary_valid_multiple_elements :
    decode_bencoded_value
        [100, 51, 58, 107, 101, 121, 53, 58, 118, 97, 108, 117, 101,
         53, 58, 104, 101, 108, 108, 111, 105, 49, 50, 51, 101, 101] =
      .ok (.obj [([104, 101, 108, 108, 111], .num 123),
                 ([107, 101, 121], .str [118, 97, 108, 117, 101])]) := rfl

/-- Test `decode_dictionary_valid_nested`: decoding `"d1:ad1:b3:fooee"` yields
`{"a": {"b": "foo"}}`. -/
theorem test_decode_dictionary_valid_nested :
    decode_bencoded_value
        [100, 49, 58, 97, 100, 49, 58, 98, 51, 58, 102, 111, 111, 101, 101] =
      .ok (.obj [([97], .obj [([98], .str [102, 111, 111])])]) := rfl

/-- Test `decode_dictionary_valid_with_nested_list`: decoding
`"d1:ali1ei2ei3eee"` yields `{"a": [1, 2, 3]}`. -/
theorem test_decode_dictionary_valid_with_nested_list :
    decode_bencoded_value
        [100, 49, 58, 97, 108, 105, 49, 101, 105, 50, 101, 105, 51, 101, 101, 101] =
      .ok (.obj [([97], .arr [.num 1, .num 2, .num 3])]) := rfl

/-- Test `decode_dictionary_valid_nested_with_list`: decoding
`"d1:ad1:bli1ei2eeee"` yields `{"a": {"b": [1, 2]}}`. -/
theorem test_decode_dictionary_valid_nested_with_list :
    decode_bencoded_value
        [100, 49, 58, 97, 100, 49, 58, 98, 108, 105, 49, 101, 105, 50, 101, 101, 101, 101] =
      .ok (.obj [([97], .obj [([98], .arr [.num 1, .num 2])])]) := rfl

/-- Test `decode_dictionary_invalid_missing_end`: decoding `"d3:key5:value"` fails. -/
theorem test_decode_dictionary_invalid_missing_end :
    decode_bencoded_value [100, 51, 58, 107, 101, 121, 53, 58, 118, 97, 108, 117, 101] =
      .error .unterminatedDict := rfl

/-!
Claim theorems.
-/

/-- Claim C1: `decode_bencoded_value` applied to `"5:helloo"` succeeds and
returns the string `"hello"`: the parser consumes the seven bytes `5:hello`
and tolerates the trailing `o` rather than reporting an error (the second
conjunct exhibits the parse state: value `"hello"`, remainder `"o"`). -/
theorem claim1_trailing_bytes_tolerated :
    decode_bencoded_value [53, 58, 104, 101, 108, 108, 111, 111] =
      .ok (.str [104, 101, 108, 108, 111]) ∧
    parseValue 9 [53, 58, 104, 101, 108, 108, 111, 111] =
      .ok (.str [104, 101, 108, 108, 111], [111]) :=
  ⟨rfl, rfl⟩

/-- Claim C2, counterexample: the claim states that `decode_bencoded_value`
returns an error on `"i01e"` and `"i-0e"`; in fact both inputs decode
successfully (to `1` and `0`), as the disabled `should_panic` tests of
src/src/bencode.rs lines 113-126 record. -/
theorem claim2_counterexample :
    decode_bencoded_value [105, 48, 49, 101] = .ok (.num 1) ∧
    decode_bencoded_value [105, 45, 48, 101] = .ok (.num 0) ∧
    ∀ e : DecodeError,
      decode_bencoded_value [105, 48, 49, 101] ≠ .error e ∧
      decode_bencoded_value [105, 45, 48, 101] ≠ .error e :=
  ⟨rfl, rfl, fun e =>
    ⟨fun h => Except.noConfusion (show Except.ok (JValue.num 1) = Except.error e from h),
     fun h => Except.noConfusion (show Except.ok (JValue.num 0) = Except.error e from h)⟩⟩

/-- Claim C2, amended: decoding accepts non-canonical integers leniently:
`"i01e"` (leading zero) decodes to `1` and `"i-0e"` (negative zero) decodes
to `0`, rather than being rejected. -/
theorem claim2_lenient_integers :
    decode_bencoded_value [105, 48, 49, 101] = .ok (.num 1) ∧
    decode_bencoded_value [105, 45, 48, 101] = .ok (.num 0) :=
  ⟨rfl, rfl⟩

/-- Claim C5: unterminated inputs fail to decode: `"d3:key5:value"` (missing
closing `e`) gives `UnterminatedDict`, `"i123456"` (missing closing `e`) gives
`InvalidInteger`, and `"l"` gives `UnterminatedList`. -/
theorem claim5_unterminated_inputs_fail :
    decode_bencoded_value [100, 51, 58, 107, 101, 121, 53, 58, 118, 97, 108, 117, 101] =
      .error .unterminatedDict ∧
    decode_bencoded_value [105, 49, 50, 51, 52, 53, 54] = .error .invalidInteger ∧
    decode_bencoded_value [108] = .error .unterminatedList :=
  ⟨rfl, rfl, rfl⟩

/-- Claim C7: nested containers decode correctly:
`decode_bencoded_value("d1:ad1:bli1ei2eeee")` returns the dictionary
`{"a": {"b": [1, 2]}}`, the inner list in source order `1, 2`. -/
theorem claim7_nested_containers :
    decode_bencoded_value
        [100, 49, 58, 97, 100, 49, 58, 98, 108, 105, 49, 101, 105, 50, 101, 101, 101, 101] =
      .ok (.obj [([97], .obj [([98], .arr [.num 1, .num 2])])]) := rfl

/-- Claim C8: `decode_bencoded_value` is total: on every input it returns
either a value or an error — it is a Lean function into `Except`, so no input
panics and no failure is downgraded to a default value. -/
theorem claim8_total :
    ∀ bs : List Nat,
      (∃ v, decode_bencoded_value bs = .ok v) ∨
      (∃ e, decode_bencoded_value bs = .error e) := by
  intro bs
  cases h : decode_bencoded_value bs with
  | ok v => exact .inl ⟨v, rfl⟩
  | error e => exact .inr ⟨e, rfl⟩

/-- Claim C9: rejection is deterministic and idempotent: two runs of
`decode_bencoded_value` on the same input that fail, fail with the same error
kind (the embedded codec is a pure function, so equal inputs give equal
results). -/
theorem claim9_deterministic_rejection :
    ∀ (bs : List Nat) (e₁ e₂ : DecodeError),
      decode_bencoded_value bs = .error e₁ → decode_bencoded_value bs = .error e₂ →
      e₁ = e₂ := by
  intro bs e₁ e₂ h₁ h₂
  rw [h₁] at h₂
  exact (Except.error.injEq e₁ e₂).mp h₂

/-- Witness for claim C9 at the concrete input `"l"`, whose decode fails with
`UnterminatedList` on both runs. -/
theorem claim9_witness :
    DecodeError.unterminatedList = DecodeError.unterminatedList :=
  claim9_deterministic_rejection [108] .unterminatedList .unterminatedList rfl rfl

/-- Unfolds `isDigitByte` to its numeric range. -/
theorem isDigitByte_iff (c : Nat) : isDigitByte c = true ↔ 48 ≤ c ∧ c ≤ 57 := by
  simp [isDigitByte]

/-- A run of digits followed by a non-digit splits exactly at the non-digit. -/
theorem readDigits_append (ds : List Nat) (c : Nat) (r : List Nat)
    (hds : ∀ x ∈ ds, isDigitByte x = true) (hc : isDigitByte c = false) :
    readDigits (ds ++ c :: r) = (ds, c :: r) := by
  induction ds with
  | nil => simp [readDigits, hc]
  | cons d t ih =>
      have hd := hds d (List.mem_cons_self d t)
      have ht := ih (fun x hx => hds x (List.mem_cons_of_mem d hx))
      simp [readDigits, hd, ht]

/-- A byte-string whose declared length exceeds the bytes remaining after the
colon fails with `UnexpectedEof`. -/
theorem parseStr_too_long (ds tail : List Nat)
    (hne : ds ≠ []) (hdig : ∀ x ∈ ds, isDigitByte x = true)
    (hlen : tail.length < digitsVal ds) :
    parseStr (ds ++ 58 :: tail) = .error .unexpectedEof := by
  unfold parseStr
  rw [readDigits_append ds 58 tail hdig rfl]
  simp only [List.isEmpty_iff, hne, if_false, if_neg (by omega : ¬ digitsVal ds ≤ tail.length)]

/-- Claim C6: a declared byte-string length exceeding the remaining input is a
failure, never a silent truncation: for every digit run `ds` declaring more
bytes than follow the colon, decoding `ds ++ ":" ++ tail` fails with
`UnexpectedEof` and no shortened string is returned. -/
theorem claim6_length_exceeds_input (ds tail : List Nat)
    (hne : ds ≠ []) (hdig : ∀ x ∈ ds, isDigitByte x = true)
    (hlen : tail.length < digitsVal ds) :
    decode_bencoded_value (ds ++ 58 :: tail) = .error .unexpectedEof := by
  obtain ⟨d, ds', rfl⟩ : ∃ d ds', ds = d :: ds' := by
    cases ds with
    | nil => exact absurd rfl hne
    | cons d ds' => exact ⟨d, ds', rfl⟩
  have hd := hdig d (List.mem_cons_self d ds')
  have hd' : 48 ≤ d ∧ d ≤ 57 := (isDigitByte_iff d).mp hd
  have hp : parseStr (d :: (ds' ++ 58 :: tail)) = .error .unexpectedEof := by
    rw [← List.cons_append]
    exact parseStr_too_long (d :: ds') tail hne hdig hlen
  show decode_bencoded_value ((d :: ds') ++ 58 :: tail) = _
  rw [List.cons_append]
  unfold decode_bencoded_value decodeValue
  simp only [List.length_cons, parseValue,
    if_neg (by omega : ¬ d = 105), if_neg (by omega : ¬ d = 108),
    if_neg (by omega : ¬ d = 100), if_pos hd, hp, Except.map_error]
  rfl

/-- Witness for claim C6 at the test-suite input `"6:hello"`: one digit `6`,
five remaining bytes, decode fails with `UnexpectedEof`. -/
theorem claim6_witness :
    decode_bencoded_value ([54] ++ 58 :: [104, 101, 108, 108, 111]) =
      .error .unexpectedEof :=
  claim6_length_exceeds_input [54] [104, 101, 108, 108, 111]
    (by decide) (by decide) (by decide)

mutual
/-- Every error `convert` can return is a text-conversion error: `NotUtf8`
from `String::from_utf8`, or the (unreachable) `KeyNotUtf8` arm. -/
theorem convert_error_classified : ∀ (v : BValue) (e : DecodeError),
    convert v = .error e → e = .notUtf8 ∨ e = .keyNotUtf8
  | .str b, e, h => by
      rw [show convert (.str b) = convertBytes b from rfl] at h
      unfold convertBytes at h
      split at h
      · exact absurd h (by simp)
      · exact .inl (by injection h with h'; exact h'.symm)
  | .int n, e, h => by exact absurd h (by simp [convert])
  | .list l, e, h => by
      rw [show convert (.list l) = (match convertList l with
            | .error e => .error e
            | .ok a => .ok (.arr a)) from rfl] at h
      split at h
      · rename_i e₀ he₀
        injection h with h'
        exact h' ▸ convertList_error_classified l e₀ he₀
      · exact absurd h (by simp)
  | .dict d, e, h => by
      rw [show convert (.dict d) = (match convertEntries d [] with
            | .error e => .error e
            | .ok m => .ok (.obj m)) from rfl] at h
      split at h
      · rename_i e₀ he₀
        injection h with h'
        exact h' ▸ convertEntries_error_classified d [] e₀ he₀
      · exact absurd h (by simp)
theorem convertList_error_classified : ∀ (l : List BValue) (e : DecodeError),
    convertList l = .error e → e = .notUtf8 ∨ e = .keyNotUtf8
  | [], e, h => by exact absurd h (by simp [convertList])
  | v :: t, e, h => by
      rw [convertList] at h
      split at h
      · rename_i e₀ he₀
        injection h with h'
        exact h' ▸ convert_error_classified v e₀ he₀
      · rename_i w hw
        split at h
        · rename_i e₀ he₀
          injection h with h'
          exact h' ▸ convertList_error_classified t e₀ he₀
        · exact absurd h (by simp)
theorem convertEntries_error_classified :
    ∀ (es : List (List Nat × BValue)) (acc : List (List Nat × JValue)) (e : DecodeError),
    convertEntries es acc = .error e → e = .notUtf8 ∨ e = .keyNotUtf8
  | [], acc, e, h => by exact absurd h (by simp [convertEntries])
  | (k, v) :: t, acc, e, h => by
      rw [convertEntries] at h
      split at h
      · rename_i e₀ he₀
        unfold convertBytes at he₀
        split at he₀
        · exact absurd he₀ (by simp)
        · injection h with h'
          injection he₀ with h''
          exact .inl (h' ▸ h''.symm)
      · rename_i dk hdk
        split at h
        · rename_i e₀ he₀
          injection h with h'
          exact h' ▸ convert_error_classified v e₀ he₀
        · rename_i dv hdv
          split at h
          · exact convertEntries_error_classified t _ e h
          · exact .inr (by injection h with h'; exact h'.symm)
end

mutual
/-- A value containing a byte string or dictionary key that is not valid UTF-8
does not convert: `convert` returns an error. -/
theorem hasInvalid_convert_fails :
    ∀ v : BValue, hasInvalidUtf8 v = true → ∃ e, convert v = .error e
  | .str b, h => by
      have hb : validUtf8 b = false := by simpa [hasInvalidUtf8] using h
      exact ⟨.notUtf8, by simp [show convert (.str b) = convertBytes b from rfl,
        convertBytes, hb]⟩
  | .int n, h => by simp [hasInvalidUtf8] at h
  | .list l, h => by
      obtain ⟨e, he⟩ := hasInvalidList_convert_fails l (by simpa [hasInvalidUtf8] using h)
      exact ⟨e, by simp [convert, he]⟩
  | .dict d, h => by
      obtain ⟨e, he⟩ :=
        hasInvalidEntries_convert_fails d [] (by simpa [hasInvalidUtf8] using h)
      exact ⟨e, by simp [convert, he]⟩
theorem hasInvalidList_convert_fails :
    ∀ l : List BValue, hasInvalidUtf8List l = true → ∃ e, convertList l = .error e
  | [], h => by simp [hasInvalidUtf8List] at h
  | v :: t, h => by
      have h' : hasInvalidUtf8 v = true ∨ hasInvalidUtf8List t = true := by
        simpa [hasInvalidUtf8List] using h
      rcases h' with hv | ht
      · obtain ⟨e, he⟩ := hasInvalid_convert_fails v hv
        exact ⟨e, by simp [convertList, he]⟩
      · cases hc : convert v with
        | error e => exact ⟨e, by simp [convertList, hc]⟩
        | ok w =>
            obtain ⟨e, he⟩ := hasInvalidList_convert_fails t ht
            exact ⟨e, by simp [convertList, hc, he]⟩
theorem hasInvalidEntries_convert_fails :
    ∀ (es : List (List Nat × BValue)) (acc : List (List Nat × JValue)),
      hasInvalidUtf8Entries es = true → ∃ e, convertEntries es acc = .error e
  | [], acc, h => by simp [hasInvalidUtf8Entries] at h
  | (k, v) :: t, acc, h => by
      by_cases hk : validUtf8 k = true
      · have hck : convertBytes k = .ok (.str k) := by simp [convertBytes, hk]
        cases hcv : convert v with
        | error e => exact ⟨e, by simp [convertEntries, hck, hcv]⟩
        | ok w =>
            have ht : hasInvalidUtf8Entries t = true := by
              cases hbv : hasInvalidUtf8 v with
              | true =>
                  obtain ⟨e, he⟩ := hasInvalid_convert_fails v hbv
                  rw [hcv] at he
                  exact absurd he (by simp)
              | false => simpa [hasInvalidUtf8Entries, hk, hbv] using h
            obtain ⟨e, he⟩ := hasInvalidEntries_convert_fails t (jInsert acc k w) ht
            exact ⟨e, by simp [convertEntries, hck, hcv, he]⟩
      · have hck : convertBytes k = .error .notUtf8 := by
          simp [convertBytes, (by simpa using hk : validUtf8 k = false)]
        exact ⟨.notUtf8, by simp [convertEntries, hck]⟩
end

/-- Claim C4: text conversion of non-UTF-8 bytes fails explicitly: whenever the
parse of an input contains a byte-string value or dictionary key that is not
valid UTF-8, `decode_bencoded_value` returns an error — and that error is
`NotUtf8` or `KeyNotUtf8` — instead of substituting characters or dropping the
entry. -/
theorem claim4_invalid_utf8_fails (bs : List Nat) (v : BValue) (rest : List Nat)
    (hp : parseValue (bs.length + 1) bs = .ok (v, rest))
    (hbad : hasInvalidUtf8 v = true) :
    ∃ e, decode_bencoded_value bs = .error e ∧
      (e = DecodeError.notUtf8 ∨ e = DecodeError.keyNotUtf8) := by
  obtain ⟨e, he⟩ := hasInvalid_convert_fails v hbad
  refine ⟨e, ?_, convert_error_classified v e he⟩
  unfold decode_bencoded_value decodeValue
  rw [hp]
  exact he

/-- Witness for claim C4 at the input `"1:" ++ [0xFF]`: the parse is the
one-byte string `[0xFF]`, not valid UTF-8, and decode errors accordingly. -/
theorem claim4_witness :
    ∃ e, decode_bencoded_value [49, 58, 255] = .error e ∧
      (e = DecodeError.notUtf8 ∨ e = DecodeError.keyNotUtf8) :=
  claim4_invalid_utf8_fails [49, 58, 255] (.str [255]) [] rfl rfl

/-- Association lookup distributes over append, preferring the left list. -/
theorem bAssoc_append (l₁ l₂ : List (List Nat × BValue)) (k : List Nat) :
    bAssoc (l₁ ++ l₂) k =
      match bAssoc l₁ k with
      | some v => some v
      | none => bAssoc l₂ k := by
  induction l₁ with
  | nil => simp [bAssoc]
  | cons p t ih =>
      obtain ⟨k₁, v₁⟩ := p
      by_cases hk : k = k₁ <;> simp [bAssoc, hk, ih]

/-- Lookup after `setEntry`: the set key maps to the new value, others unchanged. -/
theorem bAssoc_setEntry (acc : List (List Nat × BValue)) (k : List Nat) (v : BValue)
    (k' : List Nat) :
    bAssoc (setEntry acc k v) k' = if k' = k then some v else bAssoc acc k' := by
  induction acc with
  | nil => simp [setEntry, bAssoc]
  | cons p t ih =>
      obtain ⟨k₁, v₁⟩ := p
      by_cases h1 : k₁ = k
      · subst h1
        by_cases h2 : k' = k₁ <;> simp [setEntry, bAssoc, h2]
      · by_cases h2 : k' = k₁
        · have h3 : ¬ k' = k := fun hh => h1 (h2.symm.trans hh)
          simp [setEntry, bAssoc, h1, h2, h3]
        · simp [setEntry, bAssoc, h1, h2, ih]

/-- Lookup in the `HashMap` built by folding `setEntry` over parsed entries:
the last binding of a key in the entry sequence wins. -/
theorem bAssoc_foldl (es : List (List Nat × BValue)) :
    ∀ (acc : List (List Nat × BValue)) (k : List Nat),
    bAssoc (es.foldl (fun a p => setEntry a p.1 p.2) acc) k =
      match bAssoc es.reverse k with
      | some v => some v
      | none => bAssoc acc k := by
  induction es with
  | nil => intro acc k; simp [bAssoc]
  | cons p t ih =>
      intro acc k
      obtain ⟨k₁, v₁⟩ := p
      rw [List.foldl_cons, ih, List.reverse_cons, bAssoc_append]
      cases bAssoc t.reverse k <;> rw [bAssoc_setEntry] <;>
        by_cases h : k = k₁ <;> simp [bAssoc, h]

/-- Lookup through `insertAll` is lookup of the last occurrence. -/
theorem insertAll_lookup (es : List (List Nat × BValue)) (k : List Nat) :
    bAssoc (insertAll es) k = bAssoc es.reverse k := by
  rw [insertAll, bAssoc_foldl]
  cases bAssoc es.reverse k <;> simp [bAssoc]

/-- Keys after `setEntry`: unchanged when the key was present, appended otherwise. -/
theorem keys_setEntry (acc : List (List Nat × BValue)) (k : List Nat) (v : BValue) :
    (setEntry acc k v).map Prod.fst =
      if k ∈ acc.map Prod.fst then acc.map Prod.fst else acc.map Prod.fst ++ [k] := by
  induction acc with
  | nil => simp [setEntry]
  | cons p t ih =>
      obtain ⟨k₁, v₁⟩ := p
      by_cases h1 : k₁ = k
      · subst h1; simp [setEntry]
      · have h1' : ¬ k = k₁ := fun hh => h1 hh.symm
        by_cases hm : k ∈ t.map Prod.fst <;> simp [setEntry, h1, h1', hm, ih]

/-- `setEntry` preserves key distinctness. -/
theorem keysNodup_setEntry (acc : List (List Nat × BValue)) (k : List Nat) (v : BValue)
    (h : keysNodup acc = true) : keysNodup (setEntry acc k v) = true := by
  induction acc with
  | nil => simp [setEntry, keysNodup]
  | cons p t ih =>
      obtain ⟨k₁, v₁⟩ := p
      have h' : ¬ k₁ ∈ t.map Prod.fst ∧ keysNodup t = true := by
        simpa [keysNodup] using h
      by_cases h1 : k₁ = k
      · subst h1; simpa [setEntry, keysNodup] using h'
      · have hk₁ : ¬ k₁ ∈ (setEntry t k v).map Prod.fst := by
          rw [keys_setEntry]
          by_cases hm : k ∈ t.map Prod.fst <;> simp [hm, h'.1, h1, List.mem_append]
        simp [setEntry, h1, keysNodup, hk₁, ih h'.2]

/-- The parsed-dictionary map has pairwise-distinct keys. -/
theorem keysNodup_insertAll (es : List (List Nat × BValue)) :
    keysNodup (insertAll es) = true := by
  have haux : ∀ (l : List (List Nat × BValue)) (acc : List (List Nat × BValue)),
      keysNodup acc = true →
      keysNodup (l.foldl (fun a p => setEntry a p.1 p.2) acc) = true := by
    intro l
    induction l with
    | nil => intro acc h; exact h
    | cons p t ih =>
        intro acc h
        exact ih (setEntry acc p.1 p.2) (keysNodup_setEntry acc p.1 p.2 h)
  exact haux es [] rfl

/-- A key absent from an entry list has no binding. -/
theorem bAssoc_eq_none (l : List (List Nat × BValue)) (k : List Nat)
    (h : ¬ k ∈ l.map Prod.fst) : bAssoc l k = none := by
  induction l with
  | nil => rfl
  | cons p t ih =>
      obtain ⟨k₁, v₁⟩ := p
      have h1 : ¬ k = k₁ := fun hh => h (by simp [hh])
      have h2 : ¬ k ∈ t.map Prod.fst := fun hh => h (by simp [hh])
      simp [bAssoc, h1, ih h2]

/-- With pairwise-distinct keys, lookup is insensitive to entry order reversal. -/
theorem bAssoc_reverse_of_nodup (l : List (List Nat × BValue))
    (h : keysNodup l = true) (k : List Nat) : bAssoc l.reverse k = bAssoc l k := by
  induction l with
  | nil => rfl
  | cons p t ih =>
      obtain ⟨k₁, v₁⟩ := p
      have h' : ¬ k₁ ∈ t.map Prod.fst ∧ keysNodup t = true := by
        simpa [keysNodup] using h
      rw [List.reverse_cons, bAssoc_append, ih h'.2]
      by_cases hk : k = k₁
      · subst hk
        rw [bAssoc_eq_none t k h'.1]
        simp [bAssoc]
      · cases h2 : bAssoc t k <;> simp [bAssoc, hk, h2]

/-- Every entry of `setEntry acc k v` is an entry of `acc` or the pair `(k, v)`. -/
theorem mem_setEntry (acc : List (List Nat × BValue)) (k : List Nat) (v : BValue)
    (p : List Nat × BValue) (h : p ∈ setEntry acc k v) : p ∈ acc ∨ p = (k, v) := by
  induction acc with
  | nil => simpa [setEntry] using h
  | cons q t ih =>
      obtain ⟨k₁, v₁⟩ := q
      by_cases h1 : k₁ = k
      · subst h1
        rcases (by simpa [setEntry] using h : p = (k₁, v) ∨ p ∈ t) with h2 | h2
        · exact .inr h2
        · exact .inl (List.mem_cons_of_mem _ h2)
      · rcases (by simpa [setEntry, h1] using h : p = (k₁, v₁) ∨ p ∈ setEntry t k v) with h2 | h2
        · exact .inl (by simp [h2])
        · rcases ih h2 with h3 | h3
          · exact .inl (List.mem_cons_of_mem _ h3)
          · exact .inr h3

/-- Every entry of the parsed-dictionary map was an entry of the input sequence. -/
theorem mem_insertAll (es : List (List Nat × BValue)) (p : List Nat × BValue)
    (h : p ∈ insertAll es) : p ∈ es := by
  have haux : ∀ (l : List (List Nat × BValue)) (acc : List (List Nat × BValue)),
      p ∈ l.foldl (fun a q => setEntry a q.1 q.2) acc → p ∈ acc ∨ p ∈ l := by
    intro l
    induction l with
    | nil => intro acc hh; exact .inl hh
    | cons q t ih =>
        intro acc hh
        rcases ih (setEntry acc q.1 q.2) hh with h2 | h2
        · rcases mem_setEntry acc q.1 q.2 p h2 with h3 | h3
          · exact .inl h3
          · exact .inr (by simp [h3])
        · exact .inr (List.mem_cons_of_mem _ h2)
  rcases haux es [] h with h2 | h2
  · exact absurd h2 (List.not_mem_nil p)
  · exact h2

/-- A key present in an entry list has a binding. -/
theorem bAssoc_isSome_of_mem (l : List (List Nat × BValue)) (k : List Nat)
    (h : k ∈ l.map Prod.fst) : ∃ v, bAssoc l k = some v := by
  induction l with
  | nil => simp at h
  | cons p t ih =>
      obtain ⟨k₁, v₁⟩ := p
      by_cases hk : k = k₁
      · exact ⟨v₁, by simp [bAssoc, hk]⟩
      · rcases (by simpa [hk] using h : k ∈ t.map Prod.fst) with h2
        obtain ⟨v, hv⟩ := ih h2
        exact ⟨v, by simp [bAssoc, hk, hv]⟩

/-- A binding found by lookup is an entry of the list. -/
theorem bAssoc_mem (l : List (List Nat × BValue)) (k : List Nat) (v : BValue)
    (h : bAssoc l k = some v) : (k, v) ∈ l := by
  induction l with
  | nil => simp [bAssoc] at h
  | cons p t ih =>
      obtain ⟨k₁, v₁⟩ := p
      by_cases hk : k = k₁
      · subst hk
        have : v₁ = v := by simpa [bAssoc] using h
        simp [this]
      · exact List.mem_cons_of_mem _ (ih (by simpa [bAssoc, hk] using h))

/-- `jInsert` binds the inserted key and leaves other bindings unchanged. -/
theorem jLookup_jInsert (m : List (List Nat × JValue)) (k : List Nat) (v : JValue)
    (k' : List Nat) :
    jLookup (jInsert m k v) k' = if k' = k then some v else jLookup m k' := by
  induction m with
  | nil => simp [jInsert, jLookup]
  | cons p t ih =>
      obtain ⟨k₁, v₁⟩ := p
      by_cases h1 : k = k₁
      · subst h1
        by_cases h2 : k' = k <;> simp [jInsert, jLookup, h2]
      · by_cases hlt : keyLt k k₁
        · by_cases h2 : k' = k
          · simp [jInsert, h1, hlt, jLookup, h2]
          · simp [jInsert, h1, hlt, jLookup, h2]
        · by_cases h2 : k' = k₁
          · have h3 : ¬ k' = k := fun hh => h1 (hh.symm.trans h2)
            have h4 : ¬ k₁ = k := fun hh => h1 hh.symm
            simp [jInsert, h1, hlt, jLookup, h2, h3, h4]
          · simp [jInsert, h1, hlt, jLookup, h2, ih]

/-- Converting a run of dictionary entries whose keys are UTF-8 and whose
values convert: the conversion succeeds, and the resulting map binds each key
to the conversion of its last binding in the run, falling back to the
accumulator for absent keys. -/
theorem convertEntries_lookup (es : List (List Nat × BValue)) :
    ∀ acc : List (List Nat × JValue),
    (∀ p ∈ es, validUtf8 p.1 = true ∧ ∃ w, convert p.2 = .ok w) →
    ∃ m, convertEntries es acc = .ok m ∧
      ∀ k, jLookup m k =
        match bAssoc es.reverse k with
        | some v => (convert v).toOption
        | none => jLookup acc k := by
  induction es with
  | nil => intro acc _; exact ⟨acc, rfl, fun k => by simp [bAssoc]⟩
  | cons p t ih =>
      intro acc h
      obtain ⟨k₀, v₀⟩ := p
      obtain ⟨hk₀, w₀, hw₀⟩ := h (k₀, v₀) (List.mem_cons_self _ _)
      obtain ⟨m, hm, hlook⟩ :=
        ih (jInsert acc k₀ w₀) (fun q hq => h q (List.mem_cons_of_mem _ hq))
      refine ⟨m, ?_, ?_⟩
      · simp [convertEntries, convertBytes, hk₀, hw₀, hm]
      · intro k
        rw [hlook k, List.reverse_cons, bAssoc_append]
        cases hbt : bAssoc t.reverse k
        · by_cases hk : k = k₀ <;>
            simp [bAssoc, jLookup_jInsert, hk, hw₀, Except.toOption]
        · simp

/-- Claim C10, counterexample: the claim as stated makes `decode_bencoded_value`
succeed on every input dictionary repeating a UTF-8 key; the input
`"d1:ai1e1:ai2e1:b1:" ++ [0xFF] ++ "e"` repeats the UTF-8 key `"a"` (first
conjunct: its parse is the dictionary with raw entries `a↦1, a↦2, b↦[0xFF]`),
yet decoding fails, because the unrelated key `"b"` holds a non-UTF-8 value. -/
theorem claim10_counterexample :
    parseValue 20
        [100, 49, 58, 97, 105, 49, 101, 49, 58, 97, 105, 50, 101,
         49, 58, 98, 49, 58, 255, 101] =
      .ok (.dict (insertAll [([97], .int 1), ([97], .int 2), ([98], .str [255])]), []) ∧
    decode_bencoded_value
        [100, 49, 58, 97, 105, 49, 101, 49, 58, 97, 105, 50, 101,
         49, 58, 98, 49, 58, 255, 101] =
      .error .notUtf8 :=
  ⟨rfl, rfl⟩

/-- Claim C10, amended: duplicate dictionary keys are resolved last-wins: for
every input parsing to a dictionary with raw entry sequence `es` in which every
key is valid UTF-8 and every value converts, `decode_bencoded_value` succeeds
with a map, and any key occurring more than once in `es` is bound to exactly
one value — the conversion of its last occurrence, overwriting the earlier. -/
theorem claim10_duplicate_keys_last_wins (bs : List Nat)
    (es : List (List Nat × BValue)) (rest : List Nat)
    (hp : parseValue (bs.length + 1) bs = .ok (.dict (insertAll es), rest))
    (hvalid : ∀ p ∈ es, validUtf8 p.1 = true ∧ ∃ w, convert p.2 = .ok w) :
    ∃ m, decode_bencoded_value bs = .ok (.obj m) ∧
      ∀ k, 2 ≤ (es.map Prod.fst).count k →
        ∃ v w, bAssoc es.reverse k = some v ∧ convert v = .ok w ∧
          jLookup m k = some w := by
  have hvalid' : ∀ p ∈ insertAll es, validUtf8 p.1 = true ∧ ∃ w, convert p.2 = .ok w :=
    fun p hp' => hvalid p (mem_insertAll es p hp')
  obtain ⟨m, hm, hlook⟩ := convertEntries_lookup (insertAll es) [] hvalid'
  refine ⟨m, ?_, ?_⟩
  · unfold decode_bencoded_value decodeValue
    rw [hp]
    simp [Except.map, convert, hm]
  · intro k hk
    have hkmem : k ∈ es.map Prod.fst :=
      List.count_pos_iff.mp (by omega)
    have hkrev : k ∈ es.reverse.map Prod.fst := by
      rw [List.map_reverse, List.mem_reverse]; exact hkmem
    obtain ⟨v, hv⟩ := bAssoc_isSome_of_mem es.reverse k hkrev
    have hmem : (k, v) ∈ es := List.mem_reverse.mp (bAssoc_mem es.reverse k v hv)
    obtain ⟨_, w, hw⟩ := hvalid (k, v) hmem
    have hw' : convert v = .ok w := hw
    refine ⟨v, w, hv, hw', ?_⟩
    rw [hlook k, bAssoc_reverse_of_nodup (insertAll es) (keysNodup_insertAll es) k,
        insertAll_lookup, hv]
    show (convert v).toOption = some w
    rw [hw']
    rfl

/-- Witness for (amended) claim C10 at the input `"d1:ai1e1:ai2ee"`: the key
`"a"` occurs twice, decode succeeds, and the map binds `"a"` to `2`, the later
occurrence. -/
theorem claim10_witness :
    ∃ m, decode_bencoded_value
        [100, 49, 58, 97, 105, 49, 101, 49, 58, 97, 105, 50, 101, 101] =
      .ok (.obj m) ∧
      ∀ k, 2 ≤ (([([97], BValue.int 1), ([97], BValue.int 2)].map Prod.fst).count k) →
        ∃ v w, bAssoc [([97], BValue.int 1), ([97], BValue.int 2)].reverse k = some v ∧
          convert v = .ok w ∧ jLookup m k = some w :=
  claim10_duplicate_keys_last_wins
    [100, 49, 58, 97, 105, 49, 101, 49, 58, 97, 105, 50, 101, 101]
    [([97], .int 1), ([97], .int 2)] [] rfl
    (by
      intro p hp
      rcases List.mem_cons.mp hp with rfl | hp'
      · exact ⟨rfl, ⟨.num 1, rfl⟩⟩
      · rcases List.mem_cons.mp hp' with rfl | hp''
        · exact ⟨rfl, ⟨.num 2, rfl⟩⟩
        · exact absurd hp'' (List.not_mem_nil p))

/-- Byte-lexicographic order is total. -/
theorem keyLe_total : ∀ a b : List Nat, keyLe a b = true ∨ keyLe b a = true
  | [], _ => .inl rfl
  | _ :: _, [] => .inr rfl
  | a :: as₁, b :: bs₁ => by
      rcases Nat.lt_trichotomy a b with h | h | h
      · exact .inl (by simp [keyLe, h])
      · subst h
        rcases keyLe_total as₁ bs₁ with h2 | h2
        · exact .inl (by simp [keyLe, h2])
        · exact .inr (by simp [keyLe, h2])
      · exact .inr (by simp [keyLe, h])

/-- Byte-lexicographic order is transitive. -/
theorem keyLe_trans : ∀ a b c : List Nat,
    keyLe a b = true → keyLe b c = true → keyLe a c = true
  | [], _, _, _, _ => rfl
  | _ :: _, [], _, h, _ => by simp [keyLe] at h
  | _ :: _, _ :: _, [], _, h => by simp [keyLe] at h
  | a :: as₁, b :: bs₁, c :: cs₁, h1, h2 => by
      have h1' : a < b ∨ (a = b ∧ keyLe as₁ bs₁ = true) := by simpa [keyLe] using h1
      have h2' : b < c ∨ (b = c ∧ keyLe bs₁ cs₁ = true) := by simpa [keyLe] using h2
      rcases h1' with h1' | ⟨rfl, h1'⟩
      · rcases h2' with h2' | ⟨rfl, h2'⟩
        · exact (by simp [keyLe, Nat.lt_trans h1' h2'])
        · exact (by simp [keyLe, h1'])
      · rcases h2' with h2' | ⟨rfl, h2'⟩
        · exact (by simp [keyLe, h2'])
        · exact (by simp [keyLe, keyLe_trans as₁ bs₁ cs₁ h1' h2'])

/-- Sorted insertion produces a permutation of consing. -/
theorem entInsert_perm (p : List Nat × BValue) :
    ∀ l : List (List Nat × BValue), List.Perm (entInsert p l) (p :: l)
  | [] => List.Perm.refl [p]
  | q :: t => by
      by_cases h : keyLe p.1 q.1
      · simp [entInsert, h]
      · simp only [entInsert, h, if_false]
        exact ((entInsert_perm p t).cons q).trans (List.Perm.swap p q t)

/-- Insertion sort permutes its input. -/
theorem entSort_perm : ∀ l : List (List Nat × BValue), List.Perm (entSort l) l
  | [] => List.Perm.refl []
  | p :: t => (entInsert_perm p (entSort t)).trans ((entSort_perm t).cons p)

/-- The key-order relation used for sortedness statements. -/
def entR (p q : List Nat × BValue) : Prop := keyLe p.1 q.1 = true

/-- Sorted insertion preserves sortedness. -/
theorem entInsert_pairwise (p : List Nat × BValue) :
    ∀ l : List (List Nat × BValue), List.Pairwise entR l →
      List.Pairwise entR (entInsert p l)
  | [], _ => by simp [entInsert, entR]
  | q :: t, h => by
      obtain ⟨hq, ht⟩ := List.pairwise_cons.mp h
      by_cases hle : keyLe p.1 q.1
      · simp only [entInsert, hle, if_true]
        refine List.pairwise_cons.mpr ⟨?_, h⟩
        intro x hx
        rcases List.mem_cons.mp hx with rfl | hx'
        · exact hle
        · exact keyLe_trans p.1 q.1 x.1 hle (hq x hx')
      · have hqp : keyLe q.1 p.1 = true := by
          rcases keyLe_total p.1 q.1 with h2 | h2
          · exact absurd h2 hle
          · exact h2
        simp only [entInsert, hle, if_false]
        refine List.pairwise_cons.mpr ⟨?_, entInsert_pairwise p t ht⟩
        intro x hx
        rcases (entInsert_perm p t).mem_iff.mp hx with h3
        rcases List.mem_cons.mp h3 with rfl | h3'
        · exact hqp
        · exact hq x h3'

/-- Insertion sort sorts. -/
theorem entSort_pairwise : ∀ l : List (List Nat × BValue), List.Pairwise entR (entSort l)
  | [] => List.Pairwise.nil
  | p :: t => entInsert_pairwise p (entSort t) (entSort_pairwise t)

/-- Inserting below every element just conses. -/
theorem entInsert_of_le (p : List Nat × BValue) (l : List (List Nat × BValue))
    (h : ∀ x ∈ l, keyLe p.1 x.1 = true) : entInsert p l = p :: l := by
  cases l with
  | nil => rfl
  | cons q t => simp [entInsert, h q (List.mem_cons_self q t)]

/-- Insertion sort fixes sorted lists. -/
theorem entSort_of_pairwise :
    ∀ l : List (List Nat × BValue), List.Pairwise entR l → entSort l = l
  | [], _ => rfl
  | p :: t, h => by
      obtain ⟨hp, ht⟩ := List.pairwise_cons.mp h
      rw [entSort, entSort_of_pairwise t ht, entInsert_of_le p t hp]

/-- `canonList` maps `canon` over the list. -/
theorem canonList_eq_map : ∀ l : List BValue, canonList l = l.map canon
  | [] => rfl
  | v :: t => by rw [canonList, canonList_eq_map t, List.map_cons]

/-- `canonEntries` canonicalizes values and keeps keys. -/
theorem canonEntries_keys : ∀ d : List (List Nat × BValue),
    (canonEntries d).map Prod.fst = d.map Prod.fst
  | [] => rfl
  | (k, v) :: t => by rw [canonEntries, List.map_cons, List.map_cons, canonEntries_keys t]

/-- `canonEntries` commutes with sorted insertion (keys are untouched). -/
theorem canonEntries_entInsert (p : List Nat × BValue) :
    ∀ l : List (List Nat × BValue),
      canonEntries (entInsert p l) = entInsert (p.1, canon p.2) (canonEntries l)
  | [] => by obtain ⟨k, v⟩ := p; rfl
  | q :: t => by
      obtain ⟨k, v⟩ := p
      obtain ⟨k₁, v₁⟩ := q
      by_cases h : keyLe k k₁
      · simp [entInsert, canonEntries, h]
      · simp [entInsert, canonEntries, h, canonEntries_entInsert (k, v) t]

/-- `canonEntries` commutes with insertion sort. -/
theorem canonEntries_entSort : ∀ l : List (List Nat × BValue),
    canonEntries (entSort l) = entSort (canonEntries l)
  | [] => rfl
  | p :: t => by
      obtain ⟨k, v⟩ := p
      rw [entSort, canonEntries_entInsert (k, v) (entSort t), canonEntries_entSort t]
      rfl

mutual
/-- Canonicalization is idempotent. -/
theorem canon_idem : ∀ v : BValue, canon (canon v) = canon v
  | .str _ => rfl
  | .int _ => rfl
  | .list l => by rw [canon, canon, canonList_idem l]
  | .dict d => by
      rw [canon, canon, canonEntries_entSort (canonEntries d), canonEntries_idem d,
        entSort_of_pairwise (entSort (canonEntries d)) (entSort_pairwise (canonEntries d))]
theorem canonList_idem : ∀ l : List BValue, canonList (canonList l) = canonList l
  | [] => rfl
  | v :: t => by rw [canonList, canonList, canon_idem v, canonList_idem t]
theorem canonEntries_idem : ∀ d : List (List Nat × BValue),
    canonEntries (canonEntries d) = canonEntries d
  | [] => rfl
  | (k, v) :: t => by rw [canonEntries, canonEntries, canon_idem v, canonEntries_idem t]
end

/-- `keysNodup` says exactly that the key list has no duplicates. -/
theorem keysNodup_iff : ∀ l : List (List Nat × BValue),
    keysNodup l = true ↔ (l.map Prod.fst).Nodup
  | [] => by simp [keysNodup]
  | (k, v) :: t => by
      rw [List.map_cons, List.nodup_cons, ← keysNodup_iff t]
      simp [keysNodup]

/-- `uniqueKeysEntries` says every entry value has unique keys. -/
theorem uniqueKeysEntries_iff : ∀ l : List (List Nat × BValue),
    uniqueKeysEntries l = true ↔ ∀ p ∈ l, uniqueKeys p.2 = true
  | [] => by simp [uniqueKeysEntries]
  | (k, v) :: t => by
      rw [uniqueKeysEntries, Bool.and_eq_true, uniqueKeysEntries_iff t]
      constructor
      · rintro ⟨h1, h2⟩ p hp
        rcases List.mem_cons.mp hp with rfl | hp'
        · exact h1
        · exact h2 p hp'
      · intro h
        exact ⟨h (k, v) (List.mem_cons_self _ _), fun p hp => h p (List.mem_cons_of_mem _ hp)⟩

mutual
/-- Canonicalization preserves key uniqueness at every level. -/
theorem uniqueKeys_canon : ∀ v : BValue, uniqueKeys v = true → uniqueKeys (canon v) = true
  | .str _, _ => rfl
  | .int _, _ => rfl
  | .list l, h => uniqueKeysList_canon l (by simpa [uniqueKeys] using h)
  | .dict d, h => by
      have h' : keysNodup d = true ∧ uniqueKeysEntries d = true := by
        simpa [uniqueKeys] using h
      have hnodup : keysNodup (entSort (canonEntries d)) = true := by
        rw [keysNodup_iff]
        have hperm := (entSort_perm (canonEntries d)).map Prod.fst
        rw [hperm.nodup_iff, canonEntries_keys d]
        exact (keysNodup_iff d).mp h'.1
      have hvals : uniqueKeysEntries (entSort (canonEntries d)) = true := by
        rw [uniqueKeysEntries_iff]
        intro p hp
        have hp' : p ∈ canonEntries d := (entSort_perm (canonEntries d)).mem_iff.mp hp
        have := (uniqueKeysEntries_iff (canonEntries d)).mp
          (uniqueKeysEntries_canon d h'.2) p hp'
        exact this
      show uniqueKeys (.dict (entSort (canonEntries d))) = true
      simp [uniqueKeys, hnodup, hvals]
theorem uniqueKeysList_canon : ∀ l : List BValue,
    uniqueKeysList l = true → uniqueKeysList (canonList l) = true
  | [], _ => rfl
  | v :: t, h => by
      have h' : uniqueKeys v = true ∧ uniqueKeysList t = true := by
        simpa [uniqueKeysList] using h
      show uniqueKeysList (canon v :: canonList t) = true
      simp [uniqueKeysList, uniqueKeys_canon v h'.1, uniqueKeysList_canon t h'.2]
theorem uniqueKeysEntries_canon : ∀ d : List (List Nat × BValue),
    uniqueKeysEntries d = true → uniqueKeysEntries (canonEntries d) = true
  | [], _ => rfl
  | (k, v) :: t, h => by
      have h' : uniqueKeys v = true ∧ uniqueKeysEntries t = true := by
        simpa [uniqueKeysEntries] using h
      show uniqueKeysEntries ((k, canon v) :: canonEntries t) = true
      simp [uniqueKeysEntries, uniqueKeys_canon v h'.1, uniqueKeysEntries_canon t h'.2]
end

/-- The canonical decimal of a natural number is never empty. -/
theorem natDecimal_ne_nil (n : Nat) : natDecimal n ≠ [] := by
  unfold natDecimal
  split
  · simp
  · rename_i h
    have hd : Nat.digits 10 n ≠ [] := Nat.digits_ne_nil_iff_ne_zero.mpr h
    simp [hd]

/-- Every byte of a canonical decimal is an ASCII digit. -/
theorem natDecimal_digitByte (n : Nat) : ∀ c ∈ natDecimal n, isDigitByte c = true := by
  intro c hc
  unfold natDecimal at hc
  split at hc
  · rw [List.mem_singleton] at hc
    subst hc
    rfl
  · rw [List.mem_reverse, List.mem_map] at hc
    obtain ⟨d, hd, rfl⟩ := hc
    have hlt : d < 10 := Nat.digits_lt_base (by norm_num) hd
    rw [isDigitByte_iff]
    omega

/-- A canonical decimal starts with a digit byte. -/
theorem natDecimal_cons (n : Nat) :
    ∃ d t, natDecimal n = d :: t ∧ isDigitByte d = true := by
  cases h : natDecimal n with
  | nil => exact absurd h (natDecimal_ne_nil n)
  | cons d t => exact ⟨d, t, rfl, natDecimal_digitByte n d (h ▸ List.mem_cons_self d t)⟩

/-- Reading back the canonical decimal of `n` gives `n`. -/
theorem digitsVal_natDecimal (n : Nat) : digitsVal (natDecimal n) = n := by
  have key : ∀ l : List Nat,
      digitsVal ((l.map (fun d => d + 48)).reverse) = Nat.ofDigits 10 l := by
    intro l
    induction l with
    | nil => rfl
    | cons d t ih =>
        rw [List.map_cons, List.reverse_cons, digitsVal, List.foldl_append,
          List.foldl_cons, List.foldl_nil]
        rw [show List.foldl (fun a c => 10 * a + (c - 48)) 0
              ((t.map (fun d => d + 48)).reverse) = Nat.ofDigits 10 t from ih]
        rw [Nat.ofDigits_cons]
        omega
  unfold natDecimal
  split
  · rename_i h
    subst h
    rfl
  · rw [key (Nat.digits 10 n), Nat.ofDigits_digits]

/-- Parsing back the canonical decimal of an integer gives that integer. -/
theorem parseIntBody_intDecimal (n : Int) : parseIntBody (intDecimal n) = .ok n := by
  unfold intDecimal
  split
  · rename_i hneg
    rw [parseIntBody]
    have hne : (natDecimal (-n).toNat).isEmpty = false := by
      rw [List.isEmpty_eq_false]
      exact natDecimal_ne_nil _
    have hall : (natDecimal (-n).toNat).all isDigitByte = true :=
      List.all_eq_true.mpr (fun c hc => natDecimal_digitByte _ c hc)
    simp only [if_pos rfl, hne, Bool.false_eq_true, if_false, hall, if_true]
    rw [digitsVal_natDecimal]
    congr 1
    have : ((-n).toNat : Int) = -n := Int.toNat_of_nonneg (by omega)
    omega
  · rename_i hpos
    obtain ⟨d, t, hdt, hd⟩ := natDecimal_cons n.toNat
    rw [hdt, parseIntBody]
    have hd45 : ¬ d = 45 := by
      have := (isDigitByte_iff d).mp hd
      omega
    have hall : (d :: t).all isDigitByte = true := by
      rw [← hdt]
      exact List.all_eq_true.mpr (fun c hc => natDecimal_digitByte _ c hc)
    rw [if_neg hd45, if_pos hall, ← hdt, digitsVal_natDecimal]
    congr 1
    exact Int.toNat_of_nonneg (by omega)

/-- No digit byte is the terminator `e`. -/
theorem intDecimal_no_e (n : Int) : ∀ c ∈ intDecimal n, ¬ c = 101 := by
  intro c hc
  unfold intDecimal at hc
  split at hc
  · rcases List.mem_cons.mp hc with rfl | hc'
    · omega
    · have := (isDigitByte_iff c).mp (natDecimal_digitByte _ c hc')
      omega
  · have := (isDigitByte_iff c).mp (natDecimal_digitByte _ c hc)
    omega

/-- `readUntilE` stops exactly at the first terminator. -/
theorem readUntilE_append (xs rest : List Nat) (h : ∀ c ∈ xs, ¬ c = 101) :
    readUntilE (xs ++ 101 :: rest) = some (xs, rest) := by
  induction xs with
  | nil => simp [readUntilE]
  | cons c t ih =>
      have hc := h c (List.mem_cons_self c t)
      have ht := ih (fun x hx => h x (List.mem_cons_of_mem c hx))
      simp [readUntilE, hc, ht]

/-- Parsing back an encoded byte string (`<len>:<bytes>`) recovers the bytes
and leaves the remainder untouched. -/
theorem parseStr_key (b rest : List Nat) :
    parseStr (natDecimal b.length ++ 58 :: (b ++ rest)) = .ok (b, rest) := by
  unfold parseStr
  rw [readDigits_append (natDecimal b.length) 58 (b ++ rest) (natDecimal_digitByte _) rfl]
  have hne : (natDecimal b.length).isEmpty = false := by
    rw [List.isEmpty_eq_false]
    exact natDecimal_ne_nil _
  simp only [hne, Bool.false_eq_true, if_false, digitsVal_natDecimal]
  rw [if_pos (by simp : b.length ≤ (b ++ rest).length)]
  rw [List.take_left, List.drop_left]

/-- `setEntry` with a fresh key appends. -/
theorem setEntry_append (acc : List (List Nat × BValue)) (k : List Nat) (v : BValue)
    (h : ¬ k ∈ acc.map Prod.fst) : setEntry acc k v = acc ++ [(k, v)] := by
  induction acc with
  | nil => rfl
  | cons p t ih =>
      obtain ⟨k₁, v₁⟩ := p
      have h1 : ¬ k₁ = k := fun hh => h (by simp [hh])
      have h2 : ¬ k ∈ t.map Prod.fst := fun hh => h (by simp [hh])
      simp [setEntry, h1, ih h2]

/-- On an entry sequence with pairwise-distinct keys, the `HashMap` fold is
the identity: no binding is overwritten. -/
theorem insertAll_self (es : List (List Nat × BValue)) (h : keysNodup es = true) :
    insertAll es = es := by
  have haux : ∀ (l acc : List (List Nat × BValue)), keysNodup l = true →
      (∀ x ∈ l.map Prod.fst, ¬ x ∈ acc.map Prod.fst) →
      l.foldl (fun a p => setEntry a p.1 p.2) acc = acc ++ l := by
    intro l
    induction l with
    | nil => intro acc _ _; simp
    | cons p t ih =>
        intro acc hl hfresh
        obtain ⟨k, v⟩ := p
        have hl' : ¬ k ∈ t.map Prod.fst ∧ keysNodup t = true := by
          simpa [keysNodup] using hl
        rw [List.foldl_cons]
        rw [show setEntry acc (k, v).1 (k, v).2 = acc ++ [(k, v)] from
          setEntry_append acc k v (hfresh k (by simp))]
        rw [ih (acc ++ [(k, v)]) hl'.2 ?_]
        · simp
        · intro x hx
          rw [List.map_append, List.mem_append]
          push_neg
          refine ⟨hfresh x (by simp [hx]), ?_⟩
          simp only [List.map_cons, List.map_nil, List.mem_singleton]
          intro hxk
          exact hl'.1 (hxk ▸ hx)
  have := haux es [] h (by simp)
  simpa [insertAll] using this

/-- Every encoded value is nonempty. -/
theorem encodeRaw_len_pos : ∀ w : BValue, 1 ≤ (encodeRaw w).length := by
  intro w
  cases w with
  | str b =>
      have := natDecimal_ne_nil b.length
      simp only [encodeRaw, List.length_append, List.length_cons]
      omega
  | int n => simp [encodeRaw]
  | list l => simp [encodeRaw]
  | dict d => simp [encodeRaw]

/-- Every encoded value starts with a byte that is a grammar leader and not
the terminator `e`. -/
theorem encodeRaw_head (w : BValue) :
    ∃ c t, encodeRaw w = c :: t ∧ ¬ c = 101 ∧
      (c = 105 ∨ c = 108 ∨ c = 100 ∨ isDigitByte c = true) := by
  cases w with
  | str b =>
      obtain ⟨d, t', hdt, hd⟩ := natDecimal_cons b.length
      refine ⟨d, t' ++ 58 :: b, ?_, ?_, .inr (.inr (.inr hd))⟩
      · simp [encodeRaw, hdt]
      · have := (isDigitByte_iff d).mp hd
        omega
  | int n => exact ⟨105, intDecimal n ++ [101], rfl, by omega, .inl rfl⟩
  | list l => exact ⟨108, encodeItems l ++ [101], rfl, by omega, .inr (.inl rfl)⟩
  | dict d => exact ⟨100, encodeEntriesRaw d ++ [101], rfl, by omega, .inr (.inr (.inl rfl))⟩

/-- A value beginning with a digit byte parses through the byte-string rule. -/
theorem parseValue_digit (f : Nat) (c : Nat) (t : List Nat) (hc : isDigitByte c = true) :
    parseValue (f + 1) (c :: t) =
      match parseStr (c :: t) with
      | .error e => .error e
      | .ok (b, r) => .ok (.str b, r) := by
  have h := (isDigitByte_iff c).mp hc
  simp only [parseValue, if_neg (by omega : ¬ c = 105), if_neg (by omega : ¬ c = 108),
    if_neg (by omega : ¬ c = 100), if_pos hc]

mutual
/-- Parsing an encoded value (with any trailing bytes) recovers exactly that
value and leaves the trailing bytes, for every value whose dictionary keys are
unique at every level, whenever the fuel is at least the encoding's length. -/
theorem parse_encodeRaw : ∀ (w : BValue) (fuel : Nat) (rest : List Nat),
    (encodeRaw w).length ≤ fuel → uniqueKeys w = true →
    parseValue fuel (encodeRaw w ++ rest) = .ok (w, rest)
  | w, 0, rest, hf, _ => by
      have := encodeRaw_len_pos w
      omega
  | .str b, f + 1, rest, hf, _ => by
      show parseValue (f + 1) ((natDecimal b.length ++ 58 :: b) ++ rest) = _
      rw [List.append_assoc, List.cons_append]
      obtain ⟨d, t', hdt, hd⟩ := natDecimal_cons b.length
      rw [hdt, List.cons_append, parseValue_digit f d (t' ++ (58 :: (b ++ rest))) hd,
        ← List.cons_append, ← hdt, parseStr_key b rest]
  | .int n, f + 1, rest, hf, _ => by
      show parseValue (f + 1) ((105 :: (intDecimal n ++ [101])) ++ rest) = _
      rw [List.cons_append, List.append_assoc]
      show (match readUntilE (intDecimal n ++ ([101] ++ rest)) with
        | none => (.error .invalidInteger : Except DecodeError (BValue × List Nat))
        | some (ds, r) =>
          match parseIntBody ds with
          | .error e => .error e
          | .ok n => .ok (.int n, r)) = _
      rw [List.singleton_append, readUntilE_append (intDecimal n) rest (intDecimal_no_e n)]
      show (match parseIntBody (intDecimal n) with
        | .error e => (.error e : Except DecodeError (BValue × List Nat))
        | .ok m => .ok (.int m, rest)) = _
      rw [parseIntBody_intDecimal n]
  | .list l, f + 1, rest, hf, hu => by
      have hf' : (encodeItems l).length + 1 ≤ f := by
        have : (encodeRaw (.list l)).length = (encodeItems l).length + 2 := by
          simp [encodeRaw]
        omega
      have hu' : uniqueKeysList l = true := by simpa [uniqueKeys] using hu
      show parseValue (f + 1) ((108 :: (encodeItems l ++ [101])) ++ rest) = _
      rw [List.cons_append, List.append_assoc, List.singleton_append]
      show (match parseItems f (encodeItems l ++ 101 :: rest) with
        | .error e => (.error e : Except DecodeError (BValue × List Nat))
        | .ok (vs, r) => .ok (.list vs, r)) = _
      rw [parseItems_encodeItems l f rest hf' hu']
  | .dict d, f + 1, rest, hf, hu => by
      have hf' : (encodeEntriesRaw d).length + 1 ≤ f := by
        have : (encodeRaw (.dict d)).length = (encodeEntriesRaw d).length + 2 := by
          simp [encodeRaw]
        omega
      have hu' : keysNodup d = true ∧ uniqueKeysEntries d = true := by
        simpa [uniqueKeys] using hu
      show parseValue (f + 1) ((100 :: (encodeEntriesRaw d ++ [101])) ++ rest) = _
      rw [List.cons_append, List.append_assoc, List.singleton_append]
      show (match parseEntries f (encodeEntriesRaw d ++ 101 :: rest) with
        | .error e => (.error e : Except DecodeError (BValue × List Nat))
        | .ok (es, r) => .ok (.dict (insertAll es), r)) = _
      rw [parseEntries_encodeEntriesRaw d f rest hf' hu'.2]
      show Except.ok (BValue.dict (insertAll d), rest) = _
      rw [insertAll_self d hu'.1]
theorem parseItems_encodeItems : ∀ (vs : List BValue) (fuel : Nat) (rest : List Nat),
    (encodeItems vs).length + 1 ≤ fuel → uniqueKeysList vs = true →
    parseItems fuel (encodeItems vs ++ 101 :: rest) = .ok (vs, rest)
  | _, 0, _, hf, _ => by omega
  | [], f + 1, rest, _, _ => by
      show parseItems (f + 1) (101 :: rest) = _
      rfl
  | v :: vs, f + 1, rest, hf, hu => by
      have hu' : uniqueKeys v = true ∧ uniqueKeysList vs = true := by
        simpa [uniqueKeysList] using hu
      have hlen : (encodeItems (v :: vs)).length =
          (encodeRaw v).length + (encodeItems vs).length := by
        simp [encodeItems]
      have hvpos := encodeRaw_len_pos v
      show parseItems (f + 1) ((encodeRaw v ++ encodeItems vs) ++ 101 :: rest) = _
      rw [List.append_assoc]
      obtain ⟨c, t, hct, hc101, _⟩ := encodeRaw_head v
      rw [hct, List.cons_append]
      show (if c = 101 then Except.ok (([] : List BValue), t ++ (encodeItems vs ++ 101 :: rest))
        else match parseValue f (c :: (t ++ (encodeItems vs ++ 101 :: rest))) with
          | .error e => .error e
          | .ok (v, r₁) =>
            match parseItems f r₁ with
            | .error e => .error e
            | .ok (vs, r₂) => .ok (v :: vs, r₂)) = _
      rw [if_neg hc101, ← List.cons_append, ← hct,
        parse_encodeRaw v f (encodeItems vs ++ 101 :: rest) (by omega) hu'.1]
      show (match parseItems f (encodeItems vs ++ 101 :: rest) with
        | .error e => (.error e : Except DecodeError (List BValue × List Nat))
        | .ok (vs₂, r₂) => .ok (v :: vs₂, r₂)) = _
      rw [parseItems_encodeItems vs f rest (by omega) hu'.2]
theorem parseEntries_encodeEntriesRaw :
    ∀ (es : List (List Nat × BValue)) (fuel : Nat) (rest : List Nat),
    (encodeEntriesRaw es).length + 1 ≤ fuel → uniqueKeysEntries es = true →
    parseEntries fuel (encodeEntriesRaw es ++ 101 :: rest) = .ok (es, rest)
  | _, 0, _, hf, _ => by omega
  | [], f + 1, rest, _, _ => by
      show parseEntries (f + 1) (101 :: rest) = _
      rfl
  | (k, v) :: es, f + 1, rest, hf, hu => by
      have hu' : uniqueKeys v = true ∧ uniqueKeysEntries es = true := by
        simpa [uniqueKeysEntries] using hu
      have hlen : (encodeEntriesRaw ((k, v) :: es)).length =
          ((natDecimal k.length).length + 1 + k.length) + (encodeRaw v).length +
            (encodeEntriesRaw es).length := by
        simp [encodeEntriesRaw]
        omega
      have hvpos := encodeRaw_len_pos v
      have hkpos : 1 ≤ (natDecimal k.length).length := by
        have := natDecimal_ne_nil k.length
        cases h : natDecimal k.length with
        | nil => exact absurd h this
        | cons a b => simp [h]
      show parseEntries (f + 1)
        (((natDecimal k.length ++ 58 :: k) ++ encodeRaw v ++ encodeEntriesRaw es) ++
          101 :: rest) = _
      have harr : ((natDecimal k.length ++ 58 :: k) ++ encodeRaw v ++ encodeEntriesRaw es) ++
          101 :: rest =
          natDecimal k.length ++ 58 ::
            (k ++ (encodeRaw v ++ (encodeEntriesRaw es ++ 101 :: rest))) := by
        simp [List.append_assoc]
      rw [harr]
      obtain ⟨d, t', hdt, hd⟩ := natDecimal_cons k.length
      have hd' := (isDigitByte_iff d).mp hd
      rw [hdt, List.cons_append]
      show (if d = 101 then
          Except.ok (([] : List (List Nat × BValue)),
            t' ++ 58 :: (k ++ (encodeRaw v ++ (encodeEntriesRaw es ++ 101 :: rest))))
        else if isDigitByte d then
          match parseStr (d :: (t' ++ 58 ::
              (k ++ (encodeRaw v ++ (encodeEntriesRaw es ++ 101 :: rest))))) with
          | .error e => .error e
          | .ok (k, r₁) =>
            match parseValue f r₁ with
            | .error e => .error e
            | .ok (v, r₂) =>
              match parseEntries f r₂ with
              | .error e => .error e
              | .ok (es, r₃) => .ok ((k, v) :: es, r₃)
        else .error .invalidKey) = _
      rw [if_neg (by omega : ¬ d = 101), if_pos hd, ← List.cons_append, ← hdt,
        parseStr_key k (encodeRaw v ++ (encodeEntriesRaw es ++ 101 :: rest))]
      show (match parseValue f (encodeRaw v ++ (encodeEntriesRaw es ++ 101 :: rest)) with
        | .error e => (.error e : Except DecodeError (List (List Nat × BValue) × List Nat))
        | .ok (v₂, r₂) =>
          match parseEntries f r₂ with
          | .error e => .error e
          | .ok (es₂, r₃) => .ok ((k, v₂) :: es₂, r₃)) = _
      rw [parse_encodeRaw v f (encodeEntriesRaw es ++ 101 :: rest) (by omega) hu'.1]
      show (match parseEntries f (encodeEntriesRaw es ++ 101 :: rest) with
        | .error e => (.error e : Except DecodeError (List (List Nat × BValue) × List Nat))
        | .ok (es₂, r₃) => .ok ((k, v) :: es₂, r₃)) = _
      rw [parseEntries_encodeEntriesRaw es f rest (by omega) hu'.2]
end

/-- Claim C3: round-trip: for every constructible value `v` whose dictionary
keys are unique at every nesting level, decoding the result of encoding `v`
succeeds and yields a value equal to `v` — equal as the Rust values compare,
i.e. up to dictionary entry order (`bvalEquiv`); the decoded value is `v`'s
canonical form. -/
theorem claim3_roundtrip (v : BValue) (h : uniqueKeys v = true) :
    ∃ w, decodeValue (encode v) = .ok w ∧ bvalEquiv w v := by
  have hc : uniqueKeys (canon v) = true := uniqueKeys_canon v h
  refine ⟨canon v, ?_, canon_idem v⟩
  unfold decodeValue encode
  have hp := parse_encodeRaw (canon v) ((encodeRaw (canon v)).length + 1) []
    (by omega) hc
  rw [List.append_nil] at hp
  rw [hp]
  rfl

/-- Witness for claim C3 at the dictionary `{"b": 1, "a": "x"}` (entries given
in unsorted key order, so the encoder's key sorting is exercised). -/
theorem claim3_witness :
    uniqueKeys (BValue.dict [([98], .int 1), ([97], .str [120])]) = true ∧
    ∃ w, decodeValue (encode (BValue.dict [([98], .int 1), ([97], .str [120])])) = .ok w ∧
      bvalEquiv w (BValue.dict [([98], .int 1), ([97], .str [120])]) :=
  ⟨rfl, claim3_roundtrip (BValue.dict [([98], .int 1), ([97], .str [120])]) rfl⟩

end Bencode
